import Mathlib

/-!
Shallow embedding of `src/bloom.rs` (`BloomFilter<K: Hash>` backed by a
`BitVec` and an `FxHasher`).

Modelling conventions:
* The bit vector `inner : BitVec` becomes `List Bool`; `BitVec::from_elem`
  becomes `List.replicate`.
* `usize`/`u64` become `Nat`; the `hasher.finish() as usize` cast is the
  identity on a 64-bit platform, so the `u64` output of `finish` is
  modelled by reducing modulo `2 ^ 64`.
* The `Hasher` trait (instantiated with `FxHasher::default()`) is modelled
  abstractly by `HashModel`: an initial state, a `write` transition for
  `key.hash(hasher)`, and a `finish` read-out. All theorems are proved for
  every such model, hence for the deterministic `FxHasher` in particular.
* Rust panics (modulo by zero in `hash_index`, out-of-bounds `BitVec::set`
  and `BitVec` indexing) become `none` in `Option`-valued results.
-/

namespace Bloom

/-- Model of a `Hasher` as `BloomFilter` uses it: `init` is the state of a
fresh default hasher, `write h key` is `key.hash(hasher)` acting on state
`h`, and `finish h` is `hasher.finish()` (reduced mod `2 ^ 64` at use
sites, since it produces a `u64`). -/
structure HashModel (K : Type) where
  init : Nat
  write : Nat → K → Nat
  finish : Nat → Nat

/-- The filter state: bit vector `inner`, its length `n_bits`, and the
number of hash rounds `k` (`PhantomData` carries no state and is dropped). -/
structure BloomFilter where
  inner : List Bool
  n_bits : Nat
  k : Nat
deriving DecidableEq, Repr

/-- `BloomFilter::new`: a bit vector of `n_bits` zeros; no validation. -/
def BloomFilter.new (n_bits k : Nat) : BloomFilter :=
  { inner := List.replicate n_bits false, n_bits := n_bits, k := k }

/-- `BloomFilter::hash_index`: feed the key into the hasher, then
`hasher.finish() as usize % self.n_bits`. Modulo by zero panics in Rust,
modelled as `none`. Returns the index together with the updated hasher
state (the `&mut H` argument). -/
def BloomFilter.hash_index (M : HashModel K) (bf : BloomFilter) (key : K)
    (h : Nat) : Option (Nat × Nat) :=
  let h' := M.write h key
  if bf.n_bits = 0 then none
  else some ((M.finish h' % 2 ^ 64) % bf.n_bits, h')

/-- `BitVec::set(i, x)`: panics (`none`) when `i` is out of bounds. -/
def setBit (bits : List Bool) (i : Nat) (x : Bool) : Option (List Bool) :=
  if i < bits.length then some (bits.set i x) else none

/-- The `for _ in 0..k` loop of `BloomFilter::insert`, with the remaining
round count, the hasher state and the bit vector passed explicitly. -/
def insertLoop (M : HashModel K) (bf : BloomFilter) (key : K) :
    Nat → Nat → List Bool → Option (List Bool)
  | 0, _, bits => some bits
  | n + 1, h, bits =>
    match bf.hash_index M key h with
    | none => none
    | some (index, h') =>
      match setBit bits index true with
      | none => none
      | some bits' => insertLoop M bf key n h' bits'

/-- `BloomFilter::insert`: fresh default hasher, then `k` rounds of
`hash_index` / `inner.set(index, true)`. -/
def BloomFilter.insert (M : HashModel K) (bf : BloomFilter) (key : K) :
    Option BloomFilter :=
  (insertLoop M bf key bf.k M.init bf.inner).map
    fun bits => { bf with inner := bits }

/-- The `for _ in 0..k` loop of `BloomFilter::check`: `self.inner[index]`
panics (`none`) out of bounds; a `false` bit short-circuits to `false`. -/
def checkLoop (M : HashModel K) (bf : BloomFilter) (key : K) :
    Nat → Nat → Option Bool
  | 0, _ => some true
  | n + 1, h =>
    match bf.hash_index M key h with
    | none => none
    | some (index, h') =>
      match bf.inner.get? index with
      | none => none
      | some b => if b then checkLoop M bf key n h' else some false

/-- `BloomFilter::check`: fresh default hasher, `k` rounds of lookup.
The method takes `&mut self` but never writes a field, so the state it
hands back is the input state. -/
def BloomFilter.check (M : HashModel K) (bf : BloomFilter) (key : K) :
    Option (Bool × BloomFilter) :=
  (checkLoop M bf key bf.k M.init).map fun b => (b, bf)

/-- The sequence of `k` indices `hash_index` derives for a key: a pure
function of the key, `n_bits`, the round count and the hash model. -/
def indexSeq (M : HashModel K) (n_bits : Nat) (key : K) :
    Nat → Nat → List Nat
  | 0, _ => []
  | n + 1, h =>
    let h' := M.write h key
    (M.finish h' % 2 ^ 64) % n_bits :: indexSeq M n_bits key n h'

/-- Set every index of `idxs` to `true` in `bits`. -/
def setAll (bits : List Bool) (idxs : List Nat) : List Bool :=
  idxs.foldl (fun bs i => bs.set i true) bits

/-- Insert a list of keys left to right. -/
def insertMany (M : HashModel K) (bf : BloomFilter) : List K → Option BloomFilter
  | [] => some bf
  | key :: keys =>
    match bf.insert M key with
    | none => none
    | some bf' => insertMany M bf' keys

/-- An API call: either an insertion or a membership check. -/
inductive Op (K : Type) where
  | ins (key : K)
  | chk (key : K)
deriving DecidableEq, Repr

/-- Run a sequence of API calls against a filter. -/
def run (M : HashModel K) (bf : BloomFilter) : List (Op K) → Option BloomFilter
  | [] => some bf
  | Op.ins key :: ops =>
    match bf.insert M key with
    | none => none
    | some bf' => run M bf' ops
  | Op.chk key :: ops =>
    match bf.check M key with
    | none => none
    | some (_, bf') => run M bf' ops

/-- The keys inserted by a sequence of API calls, in order. -/
def insertedKeys : List (Op K) → List K
  | [] => []
  | Op.ins key :: ops => key :: insertedKeys ops
  | Op.chk _ :: ops => insertedKeys ops

/-- A concrete deterministic hash model over `Nat` keys, used to evaluate
the operations on explicit inputs. -/
def natHash : HashModel Nat :=
  { init := 0, write := fun h key => h * 31 + key + 7, finish := fun h => h * 13 + 5 }

/-! ### Helper lemmas on `List.set`, `setAll` and `indexSeq` -/

theorem getD_set_self (bits : List Bool) (i : Nat) (x : Bool)
    (h : i < bits.length) : (bits.set i x).getD i false = x := by
  rw [List.getD_eq_getElem _ _ (by simpa using h)]
  exact List.getElem_set_self _

theorem getD_set_other (bits : List Bool) (i j : Nat) (x : Bool) (h : i ≠ j) :
    (bits.set i x).getD j false = bits.getD j false := by
  simp [List.getD_eq_getD_get?, List.get?_eq_getElem?, List.getElem?_set_ne h]

theorem getD_set_mono (bits : List Bool) (i j : Nat)
    (h : bits.getD j false = true) : (bits.set i true).getD j false = true := by
  by_cases hij : i = j
  · subst hij
    by_cases hlen : i < bits.length
    · exact getD_set_self bits i true hlen
    · rw [List.set_eq_of_length_le (Nat.le_of_not_lt hlen)]; exact h
  · rw [getD_set_other bits i j true hij]; exact h

theorem setAll_cons (bits : List Bool) (i : Nat) (idxs : List Nat) :
    setAll bits (i :: idxs) = setAll (bits.set i true) idxs := rfl

theorem length_setAll (idxs : List Nat) :
    ∀ bits : List Bool, (setAll bits idxs).length = bits.length := by
  induction idxs with
  | nil => intro bits; rfl
  | cons i idxs ih => intro bits; rw [setAll_cons, ih, List.length_set]

theorem getD_setAll_mono (idxs : List Nat) : ∀ (bits : List Bool) (j : Nat),
    bits.getD j false = true → (setAll bits idxs).getD j false = true := by
  induction idxs with
  | nil => intro bits j h; exact h
  | cons i idxs ih =>
    intro bits j h
    rw [setAll_cons]
    exact ih _ _ (getD_set_mono bits i j h)

theorem getD_setAll_mem (idxs : List Nat) : ∀ (bits : List Bool) (i : Nat),
    i ∈ idxs → i < bits.length → (setAll bits idxs).getD i false = true := by
  induction idxs with
  | nil => intro bits i h; exact absurd h (List.not_mem_nil i)
  | cons a idxs ih =>
    intro bits i hmem hlt
    rw [setAll_cons]
    rcases List.mem_cons.mp hmem with h | h
    · subst h; exact getD_setAll_mono idxs _ _ (getD_set_self bits i true hlt)
    · exact ih _ _ h (by rw [List.length_set]; exact hlt)

theorem getD_setAll_not_mem (idxs : List Nat) : ∀ (bits : List Bool) (j : Nat),
    j ∉ idxs → (setAll bits idxs).getD j false = bits.getD j false := by
  induction idxs with
  | nil => intro bits j _; rfl
  | cons i idxs ih =>
    intro bits j h
    rw [setAll_cons, ih _ _ (fun hm => h (List.mem_cons_of_mem i hm)),
      getD_set_other bits i j true (fun he => h (he ▸ List.mem_cons_self i idxs))]

theorem set_eq_self_of_getD (bits : List Bool) (i : Nat)
    (h : bits.getD i false = true) : bits.set i true = bits := by
  by_cases hlt : i < bits.length
  · apply List.ext_getElem (List.length_set bits i true)
    intro n h1 h2
    by_cases hin : i = n
    · subst hin
      rw [List.getElem_set_self]
      rw [List.getD_eq_getElem _ _ hlt] at h
      exact h.symm
    · exact List.getElem_set_ne hin h1
  · exact List.set_eq_of_length_le (Nat.le_of_not_lt hlt)

theorem setAll_eq_self (idxs : List Nat) : ∀ bits : List Bool,
    (∀ i ∈ idxs, bits.getD i false = true) → setAll bits idxs = bits := by
  induction idxs with
  | nil => intro bits _; rfl
  | cons a idxs ih =>
    intro bits h
    rw [setAll_cons, set_eq_self_of_getD bits a (h a (List.mem_cons_self a idxs))]
    exact ih bits fun i hi => h i (List.mem_cons_of_mem a hi)

theorem indexSeq_lt (M : HashModel K) (n_bits : Nat) (key : K)
    (hn : 0 < n_bits) : ∀ (n h : Nat), ∀ i ∈ indexSeq M n_bits key n h,
      i < n_bits := by
  intro n
  induction n with
  | zero => intro h i hi; simp [indexSeq] at hi
  | succ n ih =>
    intro h i hi
    simp only [indexSeq, List.mem_cons] at hi
    rcases hi with h1 | h1
    · subst h1; exact Nat.mod_lt _ hn
    · exact ih _ i h1

/-! ### Characterizations of the loops and the operations -/

theorem hash_index_eq (M : HashModel K) (bf : BloomFilter) (key : K)
    (h : Nat) (hn : bf.n_bits ≠ 0) :
    bf.hash_index M key h =
      some ((M.finish (M.write h key) % 2 ^ 64) % bf.n_bits, M.write h key) := by
  simp [BloomFilter.hash_index, hn]

theorem insertLoop_eq (M : HashModel K) (bf : BloomFilter) (key : K)
    (hn : bf.n_bits ≠ 0) : ∀ (n h : Nat) (bits : List Bool),
      bits.length = bf.n_bits →
      insertLoop M bf key n h bits =
        some (setAll bits (indexSeq M bf.n_bits key n h)) := by
  intro n
  induction n with
  | zero => intro h bits _; rfl
  | succ n ih =>
    intro h bits hlen
    have hidx : (M.finish (M.write h key) % 2 ^ 64) % bf.n_bits < bits.length := by
      rw [hlen]; exact Nat.mod_lt _ (Nat.pos_of_ne_zero hn)
    rw [insertLoop, hash_index_eq M bf key h hn]
    simp only [setBit, hidx, if_pos]
    rw [ih _ _ (by rw [List.length_set]; exact hlen)]
    rfl

theorem checkLoop_eq (M : HashModel K) (bf : BloomFilter) (key : K)
    (hn : bf.n_bits ≠ 0) (hlen : bf.inner.length = bf.n_bits) :
    ∀ (n h : Nat), checkLoop M bf key n h =
      some ((indexSeq M bf.n_bits key n h).all fun i => bf.inner.getD i false) := by
  intro n
  induction n with
  | zero => intro h; rfl
  | succ n ih =>
    intro h
    have hidx : (M.finish (M.write h key) % 2 ^ 64) % bf.n_bits < bf.inner.length := by
      rw [hlen]; exact Nat.mod_lt _ (Nat.pos_of_ne_zero hn)
    have hget : bf.inner.get? ((M.finish (M.write h key) % 2 ^ 64) % bf.n_bits) =
        some (bf.inner.getD ((M.finish (M.write h key) % 2 ^ 64) % bf.n_bits) false) := by
      rw [List.get?_eq_getElem?, List.getElem?_eq_getElem hidx,
        List.getD_eq_getElem _ _ hidx]
    have hseq : indexSeq M bf.n_bits key (n + 1) h =
        (M.finish (M.write h key) % 2 ^ 64) % bf.n_bits ::
          indexSeq M bf.n_bits key n (M.write h key) := rfl
    rw [checkLoop, hash_index_eq M bf key h hn]
    dsimp only
    rw [hget, hseq, List.all_cons]
    cases hbit : bf.inner.getD ((M.finish (M.write h key) % 2 ^ 64) % bf.n_bits) false with
    | false => simp
    | true => simp [ih]

theorem insert_eq (M : HashModel K) (bf : BloomFilter) (key : K)
    (hn : bf.n_bits ≠ 0) (hlen : bf.inner.length = bf.n_bits) :
    bf.insert M key =
      some { bf with inner := setAll bf.inner (indexSeq M bf.n_bits key bf.k M.init) } := by
  rw [BloomFilter.insert, insertLoop_eq M bf key hn bf.k M.init bf.inner hlen]
  rfl

theorem check_eq (M : HashModel K) (bf : BloomFilter) (key : K)
    (hn : bf.n_bits ≠ 0) (hlen : bf.inner.length = bf.n_bits) :
    bf.check M key =
      some ((indexSeq M bf.n_bits key bf.k M.init).all
        (fun i => bf.inner.getD i false), bf) := by
  rw [BloomFilter.check, checkLoop_eq M bf key hn hlen bf.k M.init]
  rfl

/-! ### Inversion lemmas: what a successful call guarantees -/

theorem insertLoop_some_inv (M : HashModel K) (bf : BloomFilter) (key : K) :
    ∀ (n h : Nat) (bits bits' : List Bool),
      insertLoop M bf key n h bits = some bits' →
      bits'.length = bits.length ∧
        ∀ i, bits.getD i false = true → bits'.getD i false = true := by
  intro n
  induction n with
  | zero =>
    intro h bits bits' heq
    simp only [insertLoop] at heq
    injection heq with heq
    subst heq
    exact ⟨rfl, fun i hi => hi⟩
  | succ n ih =>
    intro h bits bits' heq
    simp only [insertLoop] at heq
    cases hh : bf.hash_index M key h with
    | none => rw [hh] at heq; cases heq
    | some p =>
      obtain ⟨index, h'⟩ := p
      rw [hh] at heq
      dsimp only at heq
      by_cases hlt : index < bits.length
      · rw [setBit, if_pos hlt] at heq
        dsimp only at heq
        obtain ⟨hl, hmono⟩ := ih h' (bits.set index true) bits' heq
        refine ⟨hl.trans (List.length_set bits index true), fun i hi => ?_⟩
        exact hmono i (getD_set_mono bits index i hi)
      · rw [setBit, if_neg hlt] at heq
        cases heq

theorem insert_some_inv (M : HashModel K) (bf bf' : BloomFilter) (key : K)
    (heq : bf.insert M key = some bf') :
    bf'.n_bits = bf.n_bits ∧ bf'.k = bf.k ∧
      bf'.inner.length = bf.inner.length ∧
      ∀ i, bf.inner.getD i false = true → bf'.inner.getD i false = true := by
  rw [BloomFilter.insert] at heq
  cases hl : insertLoop M bf key bf.k M.init bf.inner with
  | none => rw [hl] at heq; cases heq
  | some bits' =>
    rw [hl] at heq
    obtain rfl : { bf with inner := bits' } = bf' := by
      simpa using heq
    obtain ⟨h1, h2⟩ := insertLoop_some_inv M bf key bf.k M.init bf.inner bits' hl
    exact ⟨rfl, rfl, h1, h2⟩

theorem check_some_state (M : HashModel K) (bf bf' : BloomFilter) (key : K)
    (b : Bool) (heq : bf.check M key = some (b, bf')) : bf' = bf := by
  rw [BloomFilter.check] at heq
  cases hl : checkLoop M bf key bf.k M.init with
  | none => rw [hl] at heq; cases heq
  | some b0 =>
    rw [hl] at heq
    simp only [Option.map_some', Option.some.injEq, Prod.mk.injEq] at heq
    exact heq.2.symm

theorem insertMany_some_inv (M : HashModel K) :
    ∀ (keys : List K) (bf bf' : BloomFilter), insertMany M bf keys = some bf' →
      bf'.n_bits = bf.n_bits ∧ bf'.k = bf.k ∧
        bf'.inner.length = bf.inner.length ∧
        ∀ i, bf.inner.getD i false = true → bf'.inner.getD i false = true := by
  intro keys
  induction keys with
  | nil =>
    intro bf bf' heq
    simp only [insertMany] at heq
    injection heq with heq
    subst heq
    exact ⟨rfl, rfl, rfl, fun i hi => hi⟩
  | cons key keys ih =>
    intro bf bf' heq
    simp only [insertMany] at heq
    cases hi : bf.insert M key with
    | none => rw [hi] at heq; cases heq
    | some bf1 =>
      rw [hi] at heq
      obtain ⟨k1, k2, k3, k4⟩ := insert_some_inv M bf bf1 key hi
      obtain ⟨m1, m2, m3, m4⟩ := ih bf1 bf' heq
      exact ⟨m1.trans k1, m2.trans k2, m3.trans k3, fun i h2 => m4 i (k4 i h2)⟩

theorem run_some_inv (M : HashModel K) :
    ∀ (ops : List (Op K)) (bf bf' : BloomFilter), run M bf ops = some bf' →
      bf'.n_bits = bf.n_bits ∧ bf'.k = bf.k ∧
        bf'.inner.length = bf.inner.length ∧
        ∀ i, bf.inner.getD i false = true → bf'.inner.getD i false = true := by
  intro ops
  induction ops with
  | nil =>
    intro bf bf' heq
    simp only [run] at heq
    injection heq with heq
    subst heq
    exact ⟨rfl, rfl, rfl, fun i hi => hi⟩
  | cons op ops ih =>
    intro bf bf' heq
    cases op with
    | ins key =>
      simp only [run] at heq
      cases hi : bf.insert M key with
      | none => rw [hi] at heq; cases heq
      | some bf1 =>
        rw [hi] at heq
        obtain ⟨k1, k2, k3, k4⟩ := insert_some_inv M bf bf1 key hi
        obtain ⟨m1, m2, m3, m4⟩ := ih bf1 bf' heq
        exact ⟨m1.trans k1, m2.trans k2, m3.trans k3, fun i h2 => m4 i (k4 i h2)⟩
    | chk key =>
      simp only [run] at heq
      cases hc : bf.check M key with
      | none => rw [hc] at heq; cases heq
      | some p =>
        obtain ⟨b, bf1⟩ := p
        rw [hc] at heq
        have hb : bf1 = bf := check_some_state M bf bf1 key b hc
        rw [hb] at heq
        exact ih bf bf' heq

theorem run_eq_insertMany (M : HashModel K) :
    ∀ (ops : List (Op K)) (bf bf' : BloomFilter), run M bf ops = some bf' →
      insertMany M bf (insertedKeys ops) = some bf' := by
  intro ops
  induction ops with
  | nil => intro bf bf' heq; exact heq
  | cons op ops ih =>
    intro bf bf' heq
    cases op with
    | ins key =>
      simp only [run] at heq
      cases hi : bf.insert M key with
      | none => rw [hi] at heq; cases heq
      | some bf1 =>
        rw [hi] at heq
        show insertMany M bf (key :: insertedKeys ops) = some bf'
        simp only [insertMany]
        rw [hi]
        exact ih bf1 bf' heq
    | chk key =>
      simp only [run] at heq
      cases hc : bf.check M key with
      | none => rw [hc] at heq; cases heq
      | some p =>
        obtain ⟨b, bf1⟩ := p
        rw [hc] at heq
        have hb : bf1 = bf := check_some_state M bf bf1 key b hc
        rw [hb] at heq
        exact ih bf bf' heq

theorem insertMany_append (M : HashModel K) :
    ∀ (as bs : List K) (bf : BloomFilter),
      insertMany M bf (as ++ bs) =
        (insertMany M bf as).bind fun bf' => insertMany M bf' bs := by
  intro as
  induction as with
  | nil => intro bs bf; rfl
  | cons a as ih =>
    intro bs bf
    rw [List.cons_append]
    simp only [insertMany]
    cases hi : bf.insert M a with
    | none => rfl
    | some bf1 => exact ih bs bf1

/-! ### The claims -/

/-- C1: for every filter constructed with positive `n_bits` and `k`, any key
`x` inserted at any point (after insertions `zs`, before insertions `ys`)
still passes `check` after all later insertions: no false negatives. -/
theorem no_false_negatives (M : HashModel K) (n k : Nat) (zs : List K) (x : K)
    (ys : List K) (bf₁ bf₂ : BloomFilter) (hn : 0 < n) (hk : 0 < k)
    (h1 : insertMany M (BloomFilter.new n k) (zs ++ [x]) = some bf₁)
    (h2 : insertMany M bf₁ ys = some bf₂) :
    bf₂.check M x = some (true, bf₂) := by
  rw [insertMany_append M zs [x] (BloomFilter.new n k)] at h1
  cases hz : insertMany M (BloomFilter.new n k) zs with
  | none => rw [hz] at h1; cases h1
  | some bfz =>
    rw [hz] at h1
    dsimp only [Option.bind] at h1
    obtain ⟨z1, z2, z3, _⟩ :=
      insertMany_some_inv M zs (BloomFilter.new n k) bfz hz
    have hzn : bfz.n_bits = n := z1
    have hzk : bfz.k = k := z2
    have hzlen : bfz.inner.length = n := by
      rw [z3]; simp [BloomFilter.new]
    have hne : bfz.n_bits ≠ 0 := by rw [hzn]; exact Nat.pos_iff_ne_zero.mp hn
    have hwfz : bfz.inner.length = bfz.n_bits := by rw [hzlen, hzn]
    simp only [insertMany] at h1
    rw [insert_eq M bfz x hne hwfz] at h1
    dsimp only at h1
    injection h1 with h1
    have hseqeq : indexSeq M bfz.n_bits x bfz.k M.init =
        indexSeq M n x k M.init := by rw [hzn, hzk]
    have hb1set : ∀ i ∈ indexSeq M n x k M.init,
        bf₁.inner.getD i false = true := by
      intro i hi
      rw [← h1]
      exact getD_setAll_mem _ _ _ (hseqeq ▸ hi)
        (by rw [hzlen]; exact indexSeq_lt M n x hn k M.init i hi)
    have hb1n : bf₁.n_bits = n := by rw [← h1]; exact hzn
    have hb1k : bf₁.k = k := by rw [← h1]; exact hzk
    have hb1len : bf₁.inner.length = n := by
      rw [← h1]
      show (setAll bfz.inner _).length = n
      rw [length_setAll]; exact hzlen
    obtain ⟨m1, m2, m3, m4⟩ := insertMany_some_inv M ys bf₁ bf₂ h2
    have hb2n : bf₂.n_bits = n := m1.trans hb1n
    have hb2k : bf₂.k = k := m2.trans hb1k
    have hb2len : bf₂.inner.length = bf₂.n_bits := by
      rw [m3, hb1len, hb2n]
    rw [check_eq M bf₂ x (by rw [hb2n]; exact Nat.pos_iff_ne_zero.mp hn) hb2len]
    have hall : (indexSeq M bf₂.n_bits x bf₂.k M.init).all
        (fun i => bf₂.inner.getD i false) = true := by
      rw [hb2n, hb2k, List.all_eq_true]
      intro i hi
      exact m4 i (hb1set i hi)
    rw [hall]

/-- C1 witness: with a concrete hash model over `Nat`, insert 5 then 3 into
a fresh 7-bit, 2-round filter, then insert 9; key 3 still checks true. -/
theorem no_false_negatives_witness :
    (BloomFilter.mk [true, false, true, true, true, false, true] 7 2).check
        natHash 3 =
      some (true, BloomFilter.mk [true, false, true, true, true, false, true] 7 2) :=
  no_false_negatives natHash 7 2 [5] 3 [9]
    (BloomFilter.mk [true, false, true, false, false, false, true] 7 2)
    (BloomFilter.mk [true, false, true, true, true, false, true] 7 2)
    (by decide) (by decide) (by decide) (by decide)

/-- C2 counterexample: constructing with `n_bits = 0` does NOT fail: `new`
returns a filter (there is no error path in `new`), and the misconfiguration
instead surfaces as a modulo-by-zero panic (`none`) at the first `insert`
or `check`. -/
theorem new_zero_nbits_no_error :
    BloomFilter.new 0 2 = BloomFilter.mk [] 0 2 ∧
      (BloomFilter.new 0 2).insert natHash 5 = none ∧
      (BloomFilter.new 0 2).check natHash 5 = none := by
  decide

/-- C2 (amended): `new` performs no validation: it always succeeds, for any
`n_bits` and `k`, returning a filter with all bits clear; when `n_bits = 0`
and `k > 0` the misconfiguration surfaces as a modulo-by-zero panic at the
first `insert` or `check` instead of an error at construction time. -/
theorem new_no_validation (M : HashModel K) (n k : Nat) (key : K)
    (hk : 0 < k) :
    BloomFilter.new n k = BloomFilter.mk (List.replicate n false) n k ∧
      (BloomFilter.new 0 k).insert M key = none ∧
      (BloomFilter.new 0 k).check M key = none := by
  obtain ⟨m, rfl⟩ := Nat.exists_eq_succ_of_ne_zero (Nat.pos_iff_ne_zero.mp hk)
  refine ⟨rfl, ?_, ?_⟩
  · simp [BloomFilter.insert, insertLoop, BloomFilter.hash_index, BloomFilter.new]
  · simp [BloomFilter.check, checkLoop, BloomFilter.hash_index, BloomFilter.new]

/-- C2 amended-claim witness at concrete inputs. -/
theorem new_no_validation_witness :
    BloomFilter.new 3 2 = BloomFilter.mk (List.replicate 3 false) 3 2 ∧
      (BloomFilter.new 0 2).insert natHash 4 = none ∧
      (BloomFilter.new 0 2).check natHash 4 = none :=
  new_no_validation natHash 3 2 4 (by decide)

/-- C3: `check` computes exactly whether all `k` hash-derived bit positions
of the key are set: it returns `true` iff every derived index holds a `true`
bit, and any round whose derived bit is `false` makes the loop return
`false` at that round. -/
theorem check_iff_all_bits (M : HashModel K) (bf : BloomFilter) (key : K)
    (hn : 0 < bf.n_bits) (hlen : bf.inner.length = bf.n_bits) :
    (bf.check M key = some (true, bf) ↔
      ∀ i ∈ indexSeq M bf.n_bits key bf.k M.init,
        bf.inner.getD i false = true) ∧
      bf.check M key =
        some ((indexSeq M bf.n_bits key bf.k M.init).all
          (fun i => bf.inner.getD i false), bf) ∧
      ∀ (n h index h' : Nat), bf.hash_index M key h = some (index, h') →
        bf.inner.getD index false = false →
        checkLoop M bf key (n + 1) h = some false := by
  have hne := Nat.pos_iff_ne_zero.mp hn
  have hc := check_eq M bf key hne hlen
  refine ⟨?_, hc, ?_⟩
  · rw [hc]
    constructor
    · intro hsome
      injection hsome with hsome
      have hall : (indexSeq M bf.n_bits key bf.k M.init).all
          (fun i => bf.inner.getD i false) = true := (Prod.mk.injEq _ _ _ _ ▸ hsome).1
      exact List.all_eq_true.mp hall
    · intro hall
      rw [List.all_eq_true.mpr hall]
  · intro n h index h' hidx hbit
    rw [hash_index_eq M bf key h hne] at hidx
    injection hidx with hidx
    have hind : index = (M.finish (M.write h key) % 2 ^ 64) % bf.n_bits :=
      ((Prod.mk.injEq _ _ _ _ ▸ hidx).1).symm
    have hlt : index < bf.inner.length := by
      rw [hind, hlen]; exact Nat.mod_lt _ hn
    have hget : bf.inner.get? index = some false := by
      rw [List.get?_eq_getElem?, List.getElem?_eq_getElem hlt,
        ← List.getD_eq_getElem bf.inner false hlt, hbit]
    rw [checkLoop, hash_index_eq M bf key h hne]
    dsimp only
    rw [← hind, hget]
    simp

/-- C3 witness: on bit array `[true, false, true]` key 1 derives indices
`[1, 0]`, index 1 is clear, so `check` returns `false`. -/
theorem check_iff_all_bits_witness :
    (BloomFilter.mk [true, false, true] 3 2).check natHash 1 =
      some (false, BloomFilter.mk [true, false, true] 3 2) := by
  have h := check_iff_all_bits natHash (BloomFilter.mk [true, false, true] 3 2)
    1 (by decide) (by decide)
  rw [h.2.1]
  decide

/-- C4: immediately after `insert`, all `k` derived indices of the key hold
`true`, and every position outside the derived index list is unchanged. -/
theorem insert_postcondition (M : HashModel K) (bf bf' : BloomFilter)
    (key : K) (hn : 0 < bf.n_bits) (hlen : bf.inner.length = bf.n_bits)
    (h : bf.insert M key = some bf') :
    (∀ i ∈ indexSeq M bf.n_bits key bf.k M.init,
        bf'.inner.getD i false = true) ∧
      ∀ j, j ∉ indexSeq M bf.n_bits key bf.k M.init →
        bf'.inner.getD j false = bf.inner.getD j false := by
  rw [insert_eq M bf key (Nat.pos_iff_ne_zero.mp hn) hlen] at h
  injection h with h
  constructor
  · intro i hi
    rw [← h]
    exact getD_setAll_mem _ _ _ hi
      (by rw [hlen]; exact indexSeq_lt M bf.n_bits key hn bf.k M.init i hi)
  · intro j hj
    rw [← h]
    exact getD_setAll_not_mem _ _ _ hj

/-- C4 witness: inserting key 3 (indices `[2, 0]`) into a fresh 7-bit
filter sets exactly bits 0 and 2. -/
theorem insert_postcondition_witness :
    (∀ i ∈ indexSeq natHash 7 3 2 natHash.init,
      (BloomFilter.mk [true, false, true, false, false, false, false] 7 2).inner.getD
        i false = true) ∧
      ∀ j, j ∉ indexSeq natHash 7 3 2 natHash.init →
        (BloomFilter.mk [true, false, true, false, false, false, false] 7 2).inner.getD
            j false =
          (BloomFilter.new 7 2).inner.getD j false :=
  insert_postcondition natHash (BloomFilter.new 7 2)
    (BloomFilter.mk [true, false, true, false, false, false, false] 7 2) 3
    (by decide) (by decide) (by decide)

/-- C5: across any sequence of `insert` and `check` calls, `n_bits`, `k`
and the bit-array length are preserved (so `bits.length = n_bits` is an
invariant), and a bit that is `true` never becomes `false`. -/
theorem state_monotone (M : HashModel K) (bf bf' : BloomFilter)
    (ops : List (Op K)) (h : run M bf ops = some bf') :
    bf'.n_bits = bf.n_bits ∧ bf'.k = bf.k ∧
      bf'.inner.length = bf.inner.length ∧
      (bf.inner.length = bf.n_bits → bf'.inner.length = bf'.n_bits) ∧
      ∀ i, bf.inner.getD i false = true → bf'.inner.getD i false = true := by
  obtain ⟨h1, h2, h3, h4⟩ := run_some_inv M ops bf bf' h
  exact ⟨h1, h2, h3, fun hwf => by rw [h3, h1, hwf], h4⟩

/-- C5 witness: a run with two insertions and an interleaved check keeps
the length at `n_bits` and keeps bit 0 set. -/
theorem state_monotone_witness :
    (BloomFilter.mk [true, false, true, false, false, false, true] 7 2).inner.length =
        (BloomFilter.mk [true, false, false, false, false, false, true] 7 2).inner.length ∧
      (BloomFilter.mk [true, false, true, false, false, false, true] 7 2).inner.getD
        0 false = true := by
  have h := state_monotone natHash
    (BloomFilter.mk [true, false, false, false, false, false, true] 7 2)
    (BloomFilter.mk [true, false, true, false, false, false, true] 7 2)
    [Op.chk 2, Op.ins 3] (by decide)
  exact ⟨h.2.2.1, h.2.2.2.2 0 (by decide)⟩

/-- C6: inserting the same key twice yields the same state as inserting it
once: a second `insert` of `x` returns the state unchanged. -/
theorem insert_idempotent (M : HashModel K) (bf bf₁ : BloomFilter) (x : K)
    (hn : 0 < bf.n_bits) (hlen : bf.inner.length = bf.n_bits)
    (h : bf.insert M x = some bf₁) :
    bf₁.insert M x = some bf₁ := by
  have hne := Nat.pos_iff_ne_zero.mp hn
  obtain ⟨e1, e2, e3, _⟩ := insert_some_inv M bf bf₁ x h
  have hne1 : bf₁.n_bits ≠ 0 := by rw [e1]; exact hne
  have hlen1 : bf₁.inner.length = bf₁.n_bits := by rw [e3, hlen, e1]
  rw [insert_eq M bf₁ x hne1 hlen1]
  have hseq : indexSeq M bf₁.n_bits x bf₁.k M.init =
      indexSeq M bf.n_bits x bf.k M.init := by rw [e1, e2]
  rw [insert_eq M bf x hne hlen] at h
  injection h with h
  have hset : ∀ i ∈ indexSeq M bf.n_bits x bf.k M.init,
      bf₁.inner.getD i false = true := by
    intro i hi
    rw [← h]
    exact getD_setAll_mem _ _ _ hi
      (by rw [hlen]; exact indexSeq_lt M bf.n_bits x hn bf.k M.init i hi)
  rw [hseq, setAll_eq_self _ _ hset]

/-- C6 witness: re-inserting key 3 into the filter obtained by inserting 3
into a fresh 7-bit filter leaves the bit array unchanged. -/
theorem insert_idempotent_witness :
    (BloomFilter.mk [true, false, true, false, false, false, false] 7 2).insert
        natHash 3 =
      some (BloomFilter.mk [true, false, true, false, false, false, false] 7 2) :=
  insert_idempotent natHash (BloomFilter.new 7 2)
    (BloomFilter.mk [true, false, true, false, false, false, false] 7 2) 3
    (by decide) (by decide) (by decide)

/-- C7: two fresh filters with the same `n_bits` and `k`, driven by call
sequences that insert the same keys in the same order (interleaved checks
may differ), end in identical states: the index sequence of a key depends
only on the key, `n_bits` and `k`. -/
theorem determinism (M : HashModel K) (n k : Nat) (ops₁ ops₂ : List (Op K))
    (bf₁ bf₂ : BloomFilter) (hkeys : insertedKeys ops₁ = insertedKeys ops₂)
    (h1 : run M (BloomFilter.new n k) ops₁ = some bf₁)
    (h2 : run M (BloomFilter.new n k) ops₂ = some bf₂) : bf₁ = bf₂ := by
  have e1 := run_eq_insertMany M ops₁ (BloomFilter.new n k) bf₁ h1
  have e2 := run_eq_insertMany M ops₂ (BloomFilter.new n k) bf₂ h2
  rw [hkeys] at e1
  rw [e1] at e2
  injection e2

/-- C7 witness: inserting 5 then 3 with different interleaved checks gives
bit-for-bit identical filters. -/
theorem determinism_witness :
    BloomFilter.mk [true, false, true, false, false, false, true] 7 2 =
      BloomFilter.mk [true, false, true, false, false, false, true] 7 2 :=
  determinism natHash 7 2 [Op.ins 5, Op.chk 2, Op.ins 3]
    [Op.chk 6, Op.ins 5, Op.ins 3, Op.chk 5]
    (BloomFilter.mk [true, false, true, false, false, false, true] 7 2)
    (BloomFilter.mk [true, false, true, false, false, false, true] 7 2)
    (by decide) (by decide) (by decide)

/-- C8: with `n_bits > 0`, every index `hash_index` produces is below
`n_bits` (the modulo reduction), so `insert` and `check` never hit the
out-of-bounds (`none`) branch of the bit-array accesses. -/
theorem index_safety (M : HashModel K) (bf : BloomFilter) (key : K)
    (h : Nat) (hn : 0 < bf.n_bits) (hlen : bf.inner.length = bf.n_bits) :
    (∃ index h', bf.hash_index M key h = some (index, h') ∧
        index < bf.n_bits) ∧
      (∃ bf', bf.insert M key = some bf') ∧
      ∃ b, bf.check M key = some (b, bf) := by
  have hne := Nat.pos_iff_ne_zero.mp hn
  exact ⟨⟨_, _, hash_index_eq M bf key h hne, Nat.mod_lt _ hn⟩,
    ⟨_, insert_eq M bf key hne hlen⟩, ⟨_, check_eq M bf key hne hlen⟩⟩

/-- C8 witness at a fresh 7-bit filter and key 3. -/
theorem index_safety_witness :
    (∃ index h', (BloomFilter.new 7 2).hash_index natHash 3 0 =
        some (index, h') ∧ index < (BloomFilter.new 7 2).n_bits) ∧
      (∃ bf', (BloomFilter.new 7 2).insert natHash 3 = some bf') ∧
      ∃ b, (BloomFilter.new 7 2).check natHash 3 =
        some (b, BloomFilter.new 7 2) :=
  index_safety natHash (BloomFilter.new 7 2) 3 0 (by decide) (by decide)

/-- C9: a successful `check` hands back the filter unchanged (read-only),
and a successful `insert` changes at most the bit array: `n_bits` and `k`
are preserved. -/
theorem check_readonly_insert_frame (M : HashModel K)
    (bf bf₁ bf₂ : BloomFilter) (key₁ key₂ : K) (b : Bool)
    (hchk : bf.check M key₁ = some (b, bf₁))
    (hins : bf.insert M key₂ = some bf₂) :
    bf₁ = bf ∧ bf₂.n_bits = bf.n_bits ∧ bf₂.k = bf.k := by
  obtain ⟨h1, h2, _, _⟩ := insert_some_inv M bf bf₂ key₂ hins
  exact ⟨check_some_state M bf bf₁ key₁ b hchk, h1, h2⟩

/-- C9 witness: a concrete check leaves a fresh filter intact and a
concrete insert keeps `n_bits` and `k`. -/
theorem check_readonly_insert_frame_witness :
    BloomFilter.new 7 2 = BloomFilter.new 7 2 ∧
      (BloomFilter.mk [true, false, true, false, false, false, false] 7 2).n_bits =
        (BloomFilter.new 7 2).n_bits ∧
      (BloomFilter.mk [true, false, true, false, false, false, false] 7 2).k =
        (BloomFilter.new 7 2).k :=
  check_readonly_insert_frame natHash (BloomFilter.new 7 2)
    (BloomFilter.new 7 2)
    (BloomFilter.mk [true, false, true, false, false, false, false] 7 2)
    3 3 false (by decide) (by decide)

/-- C10: with `k = 0` nothing fails: `insert` is a no-op (the loop runs
zero rounds) and `check` returns `true` for every key, inserted or not. -/
theorem k_zero_behavior (M : HashModel K) (bf : BloomFilter) (key q : K)
    (hk : bf.k = 0) :
    bf.insert M key = some bf ∧ bf.check M q = some (true, bf) := by
  obtain ⟨inner, n_bits, k⟩ := bf
  have hk0 : k = 0 := hk
  subst hk0
  exact ⟨rfl, rfl⟩

/-- C10 witness: on a 7-bit filter with `k = 0`, inserting 4 changes
nothing and checking the never-inserted key 11 reports `true`. -/
theorem k_zero_behavior_witness :
    (BloomFilter.new 7 0).insert natHash 4 = some (BloomFilter.new 7 0) ∧
      (BloomFilter.new 7 0).check natHash 11 =
        some (true, BloomFilter.new 7 0) :=
  k_zero_behavior natHash (BloomFilter.new 7 0) 4 11 (by decide)

end Bloom
